import Mathlib

/-!
Verification of the stock/price reconciler of `seller.py`.

The file shallowly embeds the pure core of the program:
  - `create_stocks` / `create_prices`: the reconciler over remnant records
    and the marketplace offer-id list (the Python `create_stocks` mutates
    `offer_ids` in place via `list.remove`; we model it as a state
    transformer returning the output list together with the offer-id list
    as it stands after the call; `int()` failure is modelled as `none`);
  - `price_conversion`: locale price-string normalization;
  - `divide`: the chunking generator `lst[i:i+n] for i in range(0, len, n)`;
  - `get_offer_ids`: the cursor-threading pagination loop, with the remote
    server abstracted as a function from cursor to page response and the
    unbounded `while True` modelled with explicit fuel.
-/

/-- One row of the remnant spreadsheet; the Python code reads the cells
`Код` (code), `Количество` (quantity) and `Цена` (price) through `str`,
so all three are modelled as strings. -/
structure RemnantRecord where
  code : String
  qty : String
  price : String
deriving Repr, DecidableEq

/-- Entry of the stock-update list built by `create_stocks`. -/
structure StockUpdate where
  offer_id : String
  stock : Int
deriving Repr, DecidableEq

/-- Entry of the price-update list built by `create_prices`. -/
structure PriceUpdate where
  auto_action_enabled : String
  currency_code : String
  offer_id : String
  old_price : String
  price : String
deriving Repr, DecidableEq

/-- Accumulator pass of decimal parsing: consume digits, fail on any
non-digit character. -/
def parseDigitsAux : List Char → Nat → Option Nat
  | [], acc => some acc
  | c :: cs, acc =>
    if c.isDigit then parseDigitsAux cs (acc * 10 + (c.toNat - 48))
    else none

/-- A non-empty all-digit character list parsed as a natural number. -/
def parseDigits : List Char → Option Nat
  | [] => none
  | cs => parseDigitsAux cs 0

/-- Python `int()` on a plain decimal string: an optional sign followed by
at least one digit; anything else raises, modelled as `none`. -/
def pyInt (s : String) : Option Int :=
  match s.toList with
  | '-' :: cs => (parseDigits cs).map (fun n => -(n : Int))
  | '+' :: cs => (parseDigits cs).map (fun n => (n : Int))
  | cs => (parseDigits cs).map (fun n => (n : Int))

/-- The quantity quantization of `create_stocks` (seller.py lines 209-215):
`">10"` gives 100, `"1"` gives 0, anything else goes through `int()`,
modelled by `pyInt` (failure of `int()` is `none`). -/
def stockOfQty (q : String) : Option Int :=
  if q = ">10" then some 100
  else if q = "1" then some 0
  else pyInt q

/-- The first loop of `create_stocks` (seller.py lines 207-217): walk the
remnant records; a record whose code is in the current offer-id list emits
a stock entry and removes the first occurrence of its code from the list
(Python `offer_ids.remove`). Returns the matched entries in record order
together with the offer-id list left after all removals. -/
def stocksLoop : List RemnantRecord → List String → Option (List StockUpdate × List String)
  | [], ids => some ([], ids)
  | w :: ws, ids =>
    if w.code ∈ ids then
      match stockOfQty w.qty with
      | none => none
      | some st =>
        match stocksLoop ws (ids.erase w.code) with
        | none => none
        | some (m, ids') => some (⟨w.code, st⟩ :: m, ids')
    else stocksLoop ws ids

/-- `create_stocks` (seller.py lines 190-221): the matched entries followed
by a synthetic zero-stock entry for every offer id still in the (mutated)
list; the second component is the offer-id list as the caller sees it after
the call. -/
def create_stocks (ws : List RemnantRecord) (ids : List String) :
    Option (List StockUpdate × List String) :=
  match stocksLoop ws ids with
  | none => none
  | some (m, ids') => some (m ++ ids'.map (fun i => ⟨i, 0⟩), ids')

/-- Python `str.split(".")`: the segments of the character list between
occurrences of `'.'` (always at least one segment). -/
def splitDot : List Char → List (List Char)
  | [] => [[]]
  | c :: cs =>
    if c = '.' then [] :: splitDot cs
    else
      match splitDot cs with
      | [] => [[c]]
      | h :: t => (c :: h) :: t

/-- `price_conversion` (seller.py line 269):
`re.sub("[^0-9]", "", price.split(".")[0])` — first `.`-segment, then keep
only the digits. -/
def price_conversion (price : String) : String :=
  String.mk (((splitDot price.toList).headD []).filter Char.isDigit)

/-- The price entry built for a matched record in `create_prices`
(seller.py lines 242-248). -/
def mkPrice (w : RemnantRecord) : PriceUpdate :=
  { auto_action_enabled := "UNKNOWN"
    currency_code := "RUB"
    offer_id := w.code
    old_price := "0"
    price := price_conversion w.price }

/-- `create_prices` (seller.py lines 224-250): one price entry per record
whose code is in the offer-id list; the list is only read, never mutated. -/
def create_prices : List RemnantRecord → List String → List PriceUpdate
  | [], _ => []
  | w :: ws, ids =>
    if w.code ∈ ids then mkPrice w :: create_prices ws ids
    else create_prices ws ids

/-- State-transformer view of `create_prices`: the Python function performs
no mutation on either argument, so the offer-id list after the call is the
input itself. -/
def create_pricesS (ws : List RemnantRecord) (ids : List String) :
    List PriceUpdate × List String :=
  (create_prices ws ids, ids)

/-- `divide` (seller.py lines 272-292): the slices
`lst[i : i + n]` for `i in range(0, len(lst), n)`; `range` has
`⌈len / n⌉ = (len + n - 1) / n` elements. (Python raises on `n = 0`;
in ℕ the count is then 0 and no slice is produced.) -/
def divide (lst : List α) (n : Nat) : List (List α) :=
  (List.range ((lst.length + n - 1) / n)).map (fun k => (lst.drop (k * n)).take n)

/-- A page response of the paged product-list endpoint: `items`, `total`
and the continuation cursor `last_id` (seller.py lines 77-80). -/
structure ProductItem where
  offer_id : String
deriving Repr, DecidableEq

/-- One response of `get_product_list` as consumed by the pagination loop. -/
structure Page where
  items : List ProductItem
  total : Nat
  last_id : String

/-- The `while True` loop of `get_offer_ids` (seller.py lines 76-82) with
explicit fuel: request the page at the current cursor, extend the
accumulator, stop when the reported total equals the accumulated length,
else continue from the returned cursor. `none` means the fuel ran out
before the stop condition held. -/
def fetchAux (server : String → Page) : Nat → String → List ProductItem → Option (List ProductItem)
  | 0, _, _ => none
  | fuel + 1, cursor, acc =>
    let p := server cursor
    let acc' := acc ++ p.items
    if p.total = acc'.length then some acc'
    else fetchAux server fuel p.last_id acc'

/-- `get_offer_ids` (seller.py lines 54-86): run the pagination loop from
the empty cursor and empty accumulator, then project the offer ids. -/
def get_offer_ids (server : String → Page) (fuel : Nat) : Option (List String) :=
  (fetchAux server fuel "" []).map (List.map ProductItem.offer_id)

/-- The cursor the loop presents on its k-th request (0-based): the empty
string first, then the `last_id` of each response. -/
def cursorAt (server : String → Page) : Nat → String
  | 0 => ""
  | k + 1 => (server (cursorAt server k)).last_id

/-- The items accumulated after k requests of the pagination loop. -/
def itemsUpTo (server : String → Page) : Nat → List ProductItem
  | 0 => []
  | k + 1 => itemsUpTo server k ++ (server (cursorAt server k)).items

/-- The stop condition of the pagination loop as observed after the
(k+1)-st request: the reported total equals the accumulated length. -/
def stopsAt (server : String → Page) (k : Nat) : Prop :=
  (server (cursorAt server k)).total = (itemsUpTo server (k + 1)).length

instance (server : String → Page) (k : Nat) : Decidable (stopsAt server k) := by
  unfold stopsAt; infer_instance

/-! ### Lemmas about the stock loop -/

theorem stocksLoop_sublist : ∀ {ws : List RemnantRecord} {ids m ids'},
    stocksLoop ws ids = some (m, ids') → List.Sublist ids' ids := by
  intro ws
  induction ws with
  | nil =>
    intro ids m ids' h
    simp only [stocksLoop, Option.some.injEq, Prod.mk.injEq] at h
    rw [← h.2]
  | cons w ws ih =>
    intro ids m ids' h
    simp only [stocksLoop] at h
    split at h
    · split at h
      · exact absurd h (by simp)
      · split at h
        · exact absurd h (by simp)
        · rename_i p heq
          simp only [Option.some.injEq, Prod.mk.injEq] at h
          rw [← h.2]
          exact (ih heq).trans (List.erase_sublist _ _)
    · exact (ih h).trans (List.Sublist.refl _)

theorem stocksLoop_no_match : ∀ {ws : List RemnantRecord} {ids},
    (∀ w ∈ ws, w.code ∉ ids) → stocksLoop ws ids = some ([], ids) := by
  intro ws
  induction ws with
  | nil => intro ids _; rfl
  | cons w ws ih =>
    intro ids h
    simp only [stocksLoop]
    rw [if_neg (h w (List.mem_cons_self w ws))]
    exact ih (fun w' hw' => h w' (List.mem_cons_of_mem w hw'))

theorem stocksLoop_fixed : ∀ {ws : List RemnantRecord} {ids m},
    stocksLoop ws ids = some (m, ids) → ∀ w ∈ ws, w.code ∉ ids := by
  intro ws
  induction ws with
  | nil => intro ids m _ w hw; cases hw
  | cons w ws ih =>
    intro ids m h
    simp only [stocksLoop] at h
    split at h
    · rename_i hmem
      split at h
      · exact absurd h (by simp)
      · split at h
        · exact absurd h (by simp)
        · rename_i heq
          simp only [Option.some.injEq, Prod.mk.injEq] at h
          have hlen := (stocksLoop_sublist heq).length_le
          rw [h.2, List.length_erase_of_mem hmem] at hlen
          have hpos : 0 < ids.length := List.length_pos.mpr (List.ne_nil_of_mem hmem)
          exfalso; omega
    · rename_i hmem
      intro w' hw'
      rcases List.mem_cons.mp hw' with hww | hw'
      · rw [hww]; exact hmem
      · exact ih h w' hw'

theorem stocksLoop_entry_mem : ∀ {ws : List RemnantRecord} {ids m ids'},
    stocksLoop ws ids = some (m, ids') → ∀ s ∈ m, s.offer_id ∈ ids := by
  intro ws
  induction ws with
  | nil =>
    intro ids m ids' h s hs
    simp only [stocksLoop, Option.some.injEq, Prod.mk.injEq] at h
    rw [← h.1] at hs; cases hs
  | cons w ws ih =>
    intro ids m ids' h s hs
    simp only [stocksLoop] at h
    split at h
    · rename_i hmem
      split at h
      · exact absurd h (by simp)
      · split at h
        · exact absurd h (by simp)
        · rename_i heq
          simp only [Option.some.injEq, Prod.mk.injEq] at h
          rw [← h.1] at hs
          rcases List.mem_cons.mp hs with hss | hs'
          · rw [hss]; exact hmem
          · exact (List.erase_sublist _ _).subset (ih heq s hs')
    · exact ih h s hs

theorem stocksLoop_entry_code : ∀ {ws : List RemnantRecord} {ids m ids'},
    stocksLoop ws ids = some (m, ids') →
    ∀ s ∈ m, ∃ w ∈ ws, s.offer_id = w.code := by
  intro ws
  induction ws with
  | nil =>
    intro ids m ids' h s hs
    simp only [stocksLoop, Option.some.injEq, Prod.mk.injEq] at h
    rw [← h.1] at hs; cases hs
  | cons w ws ih =>
    intro ids m ids' h s hs
    simp only [stocksLoop] at h
    split at h
    · split at h
      · exact absurd h (by simp)
      · split at h
        · exact absurd h (by simp)
        · rename_i heq
          simp only [Option.some.injEq, Prod.mk.injEq] at h
          rw [← h.1] at hs
          rcases List.mem_cons.mp hs with hss | hs'
          · exact ⟨w, List.mem_cons_self w ws, by rw [hss]⟩
          · obtain ⟨w', hw', he⟩ := ih heq s hs'
            exact ⟨w', List.mem_cons_of_mem w hw', he⟩
    · obtain ⟨w', hw', he⟩ := ih h s hs
      exact ⟨w', List.mem_cons_of_mem w hw', he⟩

theorem stocksLoop_unmatched_kept : ∀ {ws : List RemnantRecord} {ids m ids'},
    stocksLoop ws ids = some (m, ids') →
    ∀ i ∈ ids, (∀ w ∈ ws, w.code ≠ i) → i ∈ ids' := by
  intro ws
  induction ws with
  | nil =>
    intro ids m ids' h i hi _
    simp only [stocksLoop, Option.some.injEq, Prod.mk.injEq] at h
    rw [← h.2]; exact hi
  | cons w ws ih =>
    intro ids m ids' h i hi hno
    simp only [stocksLoop] at h
    split at h
    · split at h
      · exact absurd h (by simp)
      · split at h
        · exact absurd h (by simp)
        · rename_i heq
          have hne : i ≠ w.code := fun hiw => hno w (List.mem_cons_self w ws) hiw.symm
          simp only [Option.some.injEq, Prod.mk.injEq] at h
          rw [← h.2]
          exact ih heq i ((List.mem_erase_of_ne hne).mpr hi)
            (fun w' hw' => hno w' (List.mem_cons_of_mem w hw'))
    · exact ih h i hi (fun w' hw' => hno w' (List.mem_cons_of_mem w hw'))

theorem stocksLoop_covered : ∀ {ws : List RemnantRecord} {ids m ids'},
    stocksLoop ws ids = some (m, ids') →
    ∀ i ∈ ids, i ∈ ids' ∨ ∃ s ∈ m, s.offer_id = i := by
  intro ws
  induction ws with
  | nil =>
    intro ids m ids' h i hi
    simp only [stocksLoop, Option.some.injEq, Prod.mk.injEq] at h
    rw [← h.2]; exact Or.inl hi
  | cons w ws ih =>
    intro ids m ids' h i hi
    simp only [stocksLoop] at h
    by_cases hmem : w.code ∈ ids
    · rw [if_pos hmem] at h
      cases hq : stockOfQty w.qty with
      | none => rw [hq] at h; exact absurd h (by simp)
      | some st =>
        rw [hq] at h
        cases hr : stocksLoop ws (ids.erase w.code) with
        | none => rw [hr] at h; exact absurd h (by simp)
        | some p =>
          obtain ⟨m2, ids2⟩ := p
          rw [hr] at h
          simp only [Option.some.injEq, Prod.mk.injEq] at h
          by_cases hic : i = w.code
          · refine Or.inr ⟨⟨w.code, st⟩, ?_, hic.symm⟩
            rw [← h.1]; exact List.mem_cons_self _ _
          · rcases ih hr i ((List.mem_erase_of_ne hic).mpr hi) with hl | ⟨s, hs, he⟩
            · rw [← h.2]; exact Or.inl hl
            · refine Or.inr ⟨s, ?_, he⟩
              rw [← h.1]; exact List.mem_cons_of_mem _ hs
    · rw [if_neg hmem] at h
      rcases ih h i hi with hl | ⟨s, hs, he⟩
      · exact Or.inl hl
      · exact Or.inr ⟨s, hs, he⟩

theorem stocksLoop_none_left : ∀ {ws : List RemnantRecord} {ids m ids'},
    ids.Nodup → stocksLoop ws ids = some (m, ids') → ∀ w ∈ ws, w.code ∉ ids' := by
  intro ws
  induction ws with
  | nil => intro ids m ids' _ _ w hw; cases hw
  | cons w ws ih =>
    intro ids m ids' hnd h w' hw'
    simp only [stocksLoop] at h
    split at h
    · rename_i hmem
      split at h
      · exact absurd h (by simp)
      · split at h
        · exact absurd h (by simp)
        · rename_i heq
          simp only [Option.some.injEq, Prod.mk.injEq] at h
          rcases List.mem_cons.mp hw' with hww | hw'
          · rw [hww]
            intro hc
            rw [← h.2] at hc
            exact hnd.not_mem_erase ((stocksLoop_sublist heq).subset hc)
          · rw [← h.2]
            exact ih (hnd.erase w.code) heq w' hw'
    · rename_i hmem
      rcases List.mem_cons.mp hw' with hww | hw'
      · rw [hww]
        intro hc
        exact hmem ((stocksLoop_sublist h).subset hc)
      · exact ih hnd h w' hw'

/-! ### Lemmas about the price loop -/

theorem create_prices_eq_nil : ∀ {ws : List RemnantRecord} {ids},
    (∀ w ∈ ws, w.code ∉ ids) → create_prices ws ids = [] := by
  intro ws
  induction ws with
  | nil => intro ids _; rfl
  | cons w ws ih =>
    intro ids h
    simp only [create_prices]
    rw [if_neg (h w (List.mem_cons_self w ws))]
    exact ih (fun w' hw' => h w' (List.mem_cons_of_mem w hw'))

theorem create_prices_mem_ids : ∀ {ws : List RemnantRecord} {ids p},
    p ∈ create_prices ws ids → p.offer_id ∈ ids := by
  intro ws
  induction ws with
  | nil => intro ids p hp; cases hp
  | cons w ws ih =>
    intro ids p hp
    simp only [create_prices] at hp
    by_cases hmem : w.code ∈ ids
    · rw [if_pos hmem] at hp
      rcases List.mem_cons.mp hp with hpw | hp'
      · rw [hpw]; exact hmem
      · exact ih hp'
    · rw [if_neg hmem] at hp
      exact ih hp

theorem create_prices_mem_code : ∀ {ws : List RemnantRecord} {ids p},
    p ∈ create_prices ws ids → p.offer_id ∈ ws.map RemnantRecord.code := by
  intro ws
  induction ws with
  | nil => intro ids p hp; cases hp
  | cons w ws ih =>
    intro ids p hp
    simp only [create_prices] at hp
    simp only [List.map_cons, List.mem_cons]
    by_cases hmem : w.code ∈ ids
    · rw [if_pos hmem] at hp
      rcases List.mem_cons.mp hp with hpw | hp'
      · exact Or.inl (by rw [hpw]; rfl)
      · exact Or.inr (ih hp')
    · rw [if_neg hmem] at hp
      exact Or.inr (ih hp)

theorem create_prices_filter_le_one : ∀ {ws : List RemnantRecord} {ids : List String}
    (i : String), (ws.map RemnantRecord.code).Nodup →
    ((create_prices ws ids).filter (fun p => p.offer_id == i)).length ≤ 1 := by
  intro ws
  induction ws with
  | nil => intro ids i _; simp [create_prices]
  | cons w ws ih =>
    intro ids i hnd
    simp only [List.map_cons, List.nodup_cons] at hnd
    simp only [create_prices]
    by_cases hmem : w.code ∈ ids
    · rw [if_pos hmem, List.filter_cons]
      by_cases hi : ((mkPrice w).offer_id == i) = true
      · rw [if_pos hi]
        have hrest : (create_prices ws ids).filter (fun p => p.offer_id == i) = [] := by
          rw [List.filter_eq_nil_iff]
          intro p hp hpi
          apply hnd.1
          have hpe : p.offer_id = i := eq_of_beq hpi
          have hwe : (mkPrice w).offer_id = i := eq_of_beq hi
          have hpw : p.offer_id = w.code := by
            rw [hpe, ← hwe]; rfl
          rw [← hpw]
          exact create_prices_mem_code hp
        rw [hrest]
        simp
      · rw [if_neg hi]
        exact ih i hnd.2
    · rw [if_neg hmem]
      exact ih i hnd.2

theorem zeros_filter_eq : ∀ {ids : List String} {i : String}, ids.Nodup → i ∈ ids →
    ((ids.map (fun j => (⟨j, 0⟩ : StockUpdate))).filter (fun s => s.offer_id == i)) =
      [⟨i, 0⟩] := by
  intro ids
  induction ids with
  | nil => intro i _ hi; cases hi
  | cons j t ih =>
    intro i hnd hi
    simp only [List.nodup_cons] at hnd
    simp only [List.map_cons, List.filter_cons]
    by_cases hji : j = i
    · have hb : ((⟨j, 0⟩ : StockUpdate).offer_id == i) = true := by
        simp [hji]
      rw [if_pos hb, hji]
      have hrest : ((t.map (fun j => (⟨j, 0⟩ : StockUpdate))).filter
          (fun s => s.offer_id == i)) = [] := by
        rw [List.filter_eq_nil_iff]
        intro s hs hsi
        obtain ⟨j', hj', he⟩ := List.mem_map.mp hs
        apply hnd.1
        have hse : s.offer_id = i := eq_of_beq hsi
        have hj'i : j' = i := by
          rw [← hse, ← he]
        rw [hji, ← hj'i]
        exact hj'
      rw [hrest]
    · have hb : ¬((⟨j, 0⟩ : StockUpdate).offer_id == i) = true := by
        simp [hji]
      rw [if_neg hb]
      have hit : i ∈ t := by
        rcases List.mem_cons.mp hi with h | h
        · exact absurd h.symm hji
        · exact h
      exact ih hnd.2 hit

/-! ### Lemmas about the chunker -/

theorem ceil_div_succ {L n : Nat} (hn : n ≠ 0) (hL : L ≠ 0) :
    (L + n - 1) / n = ((L - n) + n - 1) / n + 1 := by
  rcases le_or_lt n L with h | h
  · have he : L + n - 1 = ((L - n) + n - 1) + n := by omega
    rw [he, Nat.add_div_right _ (Nat.pos_of_ne_zero hn)]
  · have h1 : L - n = 0 := by omega
    rw [h1, Nat.zero_add]
    have h2 : (n - 1) / n = 0 := Nat.div_eq_of_lt (by omega)
    rw [h2]
    have h3 : (L + n - 1) / n = 1 := by
      have he : L + n - 1 = (L - 1) + n := by omega
      rw [he, Nat.add_div_right _ (Nat.pos_of_ne_zero hn), Nat.div_eq_of_lt (by omega)]
    omega

theorem divide_nil {n : Nat} : divide ([] : List α) n = [] := by
  unfold divide
  have h : ((List.length ([] : List α)) + n - 1) / n = 0 := by
    cases n with
    | zero => simp
    | succ k =>
      simp only [List.length_nil]
      exact Nat.div_eq_of_lt (by omega)
  rw [h]
  rfl

theorem divide_cons {lst : List α} {n : Nat} (hn : n ≠ 0) (hl : lst ≠ []) :
    divide lst n = lst.take n :: divide (lst.drop n) n := by
  unfold divide
  have hL : lst.length ≠ 0 := fun h => hl (List.length_eq_zero.mp h)
  rw [List.length_drop, ceil_div_succ hn hL, List.range_succ_eq_map, List.map_cons]
  simp only [Nat.zero_mul, List.drop_zero, List.map_map]
  refine congrArg (lst.take n :: ·) (List.map_congr_left ?_)
  intro k _
  simp only [Function.comp_apply, Nat.succ_mul, Nat.succ_eq_add_one]
  rw [List.drop_drop, Nat.add_comm (k * n) n]

theorem divide_flatten : ∀ (L : Nat) (lst : List α), lst.length ≤ L →
    ∀ n, n ≠ 0 → (divide lst n).flatten = lst := by
  intro L
  induction L with
  | zero =>
    intro lst hlen n hn
    have : lst = [] := List.length_eq_zero.mp (Nat.le_zero.mp hlen)
    rw [this, divide_nil]
    rfl
  | succ K ih =>
    intro lst hlen n hn
    cases hl : lst with
    | nil => rw [divide_nil]; rfl
    | cons a t =>
      rw [← hl, divide_cons hn (by rw [hl]; exact List.cons_ne_nil a t)]
      rw [List.flatten_cons]
      have hdrop : (lst.drop n).length ≤ K := by
        rw [List.length_drop]
        have : 0 < lst.length := by rw [hl]; simp
        omega
      rw [ih (lst.drop n) hdrop n hn, List.take_append_drop]

theorem divide_mem_length {lst : List α} {n : Nat} {c : List α}
    (hc : c ∈ divide lst n) : c.length ≤ n := by
  unfold divide at hc
  obtain ⟨k, _, he⟩ := List.mem_map.mp hc
  rw [← he]
  exact List.length_take_le n _

theorem divide_eq_nil_iff {lst : List α} {n : Nat} (hn : n ≠ 0) :
    divide lst n = [] ↔ lst = [] := by
  unfold divide
  rw [List.map_eq_nil_iff, List.range_eq_nil]
  constructor
  · intro h
    have := Nat.div_eq_zero_iff (Nat.pos_of_ne_zero hn) |>.mp h
    have : lst.length = 0 := by omega
    exact List.length_eq_zero.mp this
  · intro h
    rw [h]
    simp only [List.length_nil]
    cases n with
    | zero => rfl
    | succ k => exact Nat.div_eq_of_lt (by omega)

theorem divide_dropLast_length : ∀ (L : Nat) (lst : List α), lst.length ≤ L →
    ∀ n, n ≠ 0 → ∀ c ∈ (divide lst n).dropLast, c.length = n := by
  intro L
  induction L with
  | zero =>
    intro lst hlen n hn c hc
    have : lst = [] := List.length_eq_zero.mp (Nat.le_zero.mp hlen)
    rw [this, divide_nil] at hc
    cases hc
  | succ K ih =>
    intro lst hlen n hn c hc
    cases hl : lst with
    | nil => rw [hl, divide_nil] at hc; cases hc
    | cons a t =>
      rw [divide_cons hn (by rw [hl]; exact List.cons_ne_nil a t)] at hc
      cases hrest : divide (lst.drop n) n with
      | nil => rw [hrest] at hc; cases hc
      | cons r rt =>
        rw [hrest, List.dropLast_cons₂] at hc
        rcases List.mem_cons.mp hc with hch | hc'
        · rw [hch, List.length_take]
          have hne : lst.drop n ≠ [] := by
            intro hz
            rw [hz] at hrest
            rw [divide_nil] at hrest
            cases hrest
          have : n < lst.length := by
            by_contra hcon
            exact hne (List.drop_eq_nil_iff.mpr (by omega))
          omega
        · rw [← hrest] at hc'
          have hdrop : (lst.drop n).length ≤ K := by
            rw [List.length_drop]
            have : 0 < lst.length := by rw [hl]; simp
            omega
          exact ih (lst.drop n) hdrop n hn c hc'

/-! ### Lemmas about price-string splitting -/

theorem splitDot_ne_nil : ∀ (l : List Char), splitDot l ≠ [] := by
  intro l
  induction l with
  | nil => simp [splitDot]
  | cons c cs ih =>
    simp only [splitDot]
    by_cases hc : c = '.'
    · rw [if_pos hc]; simp
    · rw [if_neg hc]
      cases hcs : splitDot cs with
      | nil => simp
      | cons h t => simp

theorem splitDot_headD : ∀ (l : List Char),
    (splitDot l).headD [] = l.takeWhile (fun c => !(c == '.')) := by
  intro l
  induction l with
  | nil => rfl
  | cons c cs ih =>
    simp only [splitDot]
    by_cases hc : c = '.'
    · rw [if_pos hc, hc]
      simp [List.takeWhile_cons]
    · rw [if_neg hc]
      cases hcs : splitDot cs with
      | nil => exact absurd hcs (splitDot_ne_nil cs)
      | cons h t =>
        have hb : (!(c == '.')) = true := by
          simp [hc]
        rw [List.takeWhile_cons, hb]
        simp only [List.headD_cons, if_true]
        rw [← ih, hcs]
        rfl

/-! ### Lemmas about the pagination loop -/

theorem fetchAux_reaches : ∀ (server : String → Page) (d k : Nat),
    stopsAt server (k + d) →
    ∃ m, k ≤ m ∧ m ≤ k + d ∧ stopsAt server m ∧
      fetchAux server (d + 1) (cursorAt server k) (itemsUpTo server k) =
        some (itemsUpTo server (m + 1)) := by
  intro server d
  induction d with
  | zero =>
    intro k hstop
    refine ⟨k, le_refl k, by omega, by simpa using hstop, ?_⟩
    simp only [fetchAux]
    rw [if_pos]
    · rfl
    · exact hstop
  | succ d ih =>
    intro k hstop
    by_cases hk : stopsAt server k
    · refine ⟨k, le_refl k, by omega, hk, ?_⟩
      simp only [fetchAux]
      rw [if_pos]
      · rfl
      · exact hk
    · have hstop' : stopsAt server ((k + 1) + d) := by
        have : (k + 1) + d = k + (d + 1) := by omega
        rw [this]
        exact hstop
      obtain ⟨m, hm1, hm2, hm3, hm4⟩ := ih (k + 1) hstop'
      refine ⟨m, by omega, by omega, hm3, ?_⟩
      simp only [fetchAux]
      rw [if_neg]
      · exact hm4
      · exact hk

/-! ### The claims -/

/-- Claim C1 (amended): `create_prices` leaves both argument lists
unchanged, but `create_stocks` does not: the offer-id list after the call
is a sublist of the input, and it equals the input exactly when no record
code occurs in it (each matched record removes its code). -/
theorem claim1_reconciler_frame : ∀ (ws : List RemnantRecord) (ids : List String),
    (create_pricesS ws ids).2 = ids ∧
    ∀ out ids', create_stocks ws ids = some (out, ids') →
      (List.Sublist ids' ids ∧ (ids' = ids ↔ ∀ w ∈ ws, w.code ∉ ids)) := by
  intro ws ids
  refine ⟨rfl, ?_⟩
  intro out ids' h
  unfold create_stocks at h
  cases hsl : stocksLoop ws ids with
  | none => rw [hsl] at h; exact absurd h (by simp)
  | some p =>
    obtain ⟨m, ids2⟩ := p
    rw [hsl] at h
    simp only [Option.some.injEq, Prod.mk.injEq] at h
    constructor
    · rw [← h.2]; exact stocksLoop_sublist hsl
    · constructor
      · intro he
        apply stocksLoop_fixed (m := m)
        rw [hsl, h.2, he]
      · intro hno
        have hnm := stocksLoop_no_match hno
        rw [hnm] at hsl
        simp only [Option.some.injEq, Prod.mk.injEq] at hsl
        rw [← h.2, ← hsl.2]

/-- Counterexample to claim C1 as stated: a single matched record makes
`create_stocks` remove the matched code, so the offer-id list after the
call is `[]`, not the `["A"]` that was passed in. -/
theorem claim1_cex :
    create_stocks [⟨"A", "5", "7"⟩] ["A"] = some ([⟨"A", 5⟩], []) ∧
    ([] : List String) ≠ ["A"] := by
  decide

/-- Witness for claim C1's amended theorem at a concrete input. -/
theorem claim1_witness :
    List.Sublist ["A"] ["A"] ∧
    ((["A"] : List String) = ["A"] ↔ ∀ w ∈ ([] : List RemnantRecord), w.code ∉ ["A"]) :=
  (claim1_reconciler_frame [] ["A"]).2 [⟨"A", 0⟩] ["A"] (by decide)

/-- Claim C2 (amended): in `main`'s sequencing, provided the offer-id list
contains no duplicate ids, the price pass run on the offer-id list left by
the completed stock pass produces the empty price list. -/
theorem claim2_prices_empty_after_stocks :
    ∀ (ws : List RemnantRecord) (ids : List String) out ids',
    ids.Nodup → create_stocks ws ids = some (out, ids') →
    create_prices ws ids' = [] := by
  intro ws ids out ids' hnd h
  unfold create_stocks at h
  cases hsl : stocksLoop ws ids with
  | none => rw [hsl] at h; exact absurd h (by simp)
  | some p =>
    obtain ⟨m, ids2⟩ := p
    rw [hsl] at h
    simp only [Option.some.injEq, Prod.mk.injEq] at h
    apply create_prices_eq_nil
    intro w hw
    rw [← h.2]
    exact stocksLoop_none_left hnd hsl w hw

/-- Counterexample to claim C2 as stated: with the duplicated offer-id
list `["A", "A"]` the stock pass removes only one occurrence of `"A"`, so
the record still matches in the price pass and the price list is not
empty. -/
theorem claim2_cex :
    create_stocks [⟨"A", "5", "7"⟩] ["A", "A"] =
      some ([⟨"A", 5⟩, ⟨"A", 0⟩], ["A"]) ∧
    create_prices [⟨"A", "5", "7"⟩] ["A"] ≠ [] := by
  decide

/-- Witness for claim C2's amended theorem at a concrete input. -/
theorem claim2_witness : create_prices [⟨"A", "5", "7"⟩] [] = [] :=
  claim2_prices_empty_after_stocks [⟨"A", "5", "7"⟩] ["A"] [⟨"A", 5⟩] []
    (by decide) (by decide)

/-- Claim C3 (amended): the output of `create_stocks` is the matched
entries in record input order followed by the synthesized zero-stock
entries; every known id appears in the output (no silent omission); and
when the offer-id list has no duplicates, each known id matched by no
record appears exactly once, as the entry `{offer_id, stock := 0}`. -/
theorem claim3_zero_stock_synthesis :
    ∀ (ws : List RemnantRecord) (ids : List String) out ids',
    create_stocks ws ids = some (out, ids') →
    (∃ m, stocksLoop ws ids = some (m, ids') ∧
      out = m ++ ids'.map (fun i => (⟨i, 0⟩ : StockUpdate))) ∧
    (∀ i ∈ ids, ∃ s ∈ out, s.offer_id = i) ∧
    (ids.Nodup → ∀ i ∈ ids, (∀ w ∈ ws, w.code ≠ i) →
      out.filter (fun s => s.offer_id == i) = [⟨i, 0⟩]) := by
  intro ws ids out ids' h
  unfold create_stocks at h
  cases hsl : stocksLoop ws ids with
  | none => rw [hsl] at h; exact absurd h (by simp)
  | some p =>
    obtain ⟨m, ids2⟩ := p
    rw [hsl] at h
    simp only [Option.some.injEq, Prod.mk.injEq] at h
    obtain ⟨hout, hids⟩ := h
    refine ⟨⟨m, by rw [hids], by rw [← hout, hids]⟩, ?_, ?_⟩
    · intro i hi
      rcases stocksLoop_covered hsl i hi with hkept | ⟨s, hs, he⟩
      · refine ⟨⟨i, 0⟩, ?_, rfl⟩
        rw [← hout]
        exact List.mem_append_right m (List.mem_map.mpr ⟨i, hkept, rfl⟩)
      · refine ⟨s, ?_, he⟩
        rw [← hout]
        exact List.mem_append_left _ hs
    · intro hnd i hi hno
      rw [← hout, List.filter_append]
      have hm : m.filter (fun s => s.offer_id == i) = [] := by
        rw [List.filter_eq_nil_iff]
        intro s hs hsi
        obtain ⟨w, hw, he⟩ := stocksLoop_entry_code hsl s hs
        have : s.offer_id = i := eq_of_beq hsi
        exact hno w hw (by rw [← he, this])
      have hz : (ids2.map (fun j => (⟨j, 0⟩ : StockUpdate))).filter
          (fun s => s.offer_id == i) = [⟨i, 0⟩] := by
        apply zeros_filter_eq
        · exact ((stocksLoop_sublist hsl).nodup hnd)
        · exact stocksLoop_unmatched_kept hsl i hi hno
      rw [hm, hz]
      rfl

/-- Counterexample to claim C3 as stated: with the duplicated offer-id
list `["A", "A"]` and no records, the unmatched id `"A"` receives two
zero-stock entries, not exactly one. -/
theorem claim3_cex :
    create_stocks [] ["A", "A"] = some ([⟨"A", 0⟩, ⟨"A", 0⟩], ["A", "A"]) ∧
    (([⟨"A", 0⟩, ⟨"A", 0⟩] : List StockUpdate).filter
      (fun s => s.offer_id == "A")).length ≠ 1 := by
  decide

/-- Witness for claim C3's amended theorem at a concrete input. -/
theorem claim3_witness :
    (∃ m, stocksLoop [] ["A"] = some (m, ["A"]) ∧
      ([(⟨"A", 0⟩ : StockUpdate)] : List StockUpdate) =
        m ++ (["A"] : List String).map (fun i => (⟨i, 0⟩ : StockUpdate))) ∧
    (∀ i ∈ (["A"] : List String),
      ∃ s ∈ ([(⟨"A", 0⟩ : StockUpdate)] : List StockUpdate), s.offer_id = i) ∧
    ((["A"] : List String).Nodup → ∀ i ∈ (["A"] : List String),
      (∀ w ∈ ([] : List RemnantRecord), w.code ≠ i) →
      ([(⟨"A", 0⟩ : StockUpdate)] : List StockUpdate).filter
        (fun s => s.offer_id == i) = [⟨i, 0⟩]) :=
  claim3_zero_stock_synthesis [] ["A"] [⟨"A", 0⟩] ["A"] (by decide)

/-- Claim C4 (amended): a record whose code is not a known offer id
contributes nothing — every stock entry's and every price entry's
`offer_id` belongs to the input offer-id list; and provided no two records
share a code, `create_prices` emits at most one entry per id. -/
theorem claim4_unknown_codes_ignored : ∀ (ws : List RemnantRecord) (ids : List String),
    (∀ out ids', create_stocks ws ids = some (out, ids') →
      ∀ s ∈ out, s.offer_id ∈ ids) ∧
    (∀ p ∈ create_prices ws ids, p.offer_id ∈ ids) ∧
    ((ws.map RemnantRecord.code).Nodup → ∀ i,
      ((create_prices ws ids).filter (fun p => p.offer_id == i)).length ≤ 1) := by
  intro ws ids
  refine ⟨?_, fun p hp => create_prices_mem_ids hp,
    fun hnd i => create_prices_filter_le_one i hnd⟩
  intro out ids' h s hs
  unfold create_stocks at h
  cases hsl : stocksLoop ws ids with
  | none => rw [hsl] at h; exact absurd h (by simp)
  | some q =>
    obtain ⟨m, ids2⟩ := q
    rw [hsl] at h
    simp only [Option.some.injEq, Prod.mk.injEq] at h
    rw [← h.1] at hs
    rcases List.mem_append.mp hs with hm | hz
    · exact stocksLoop_entry_mem hsl s hm
    · obtain ⟨j, hj, he⟩ := List.mem_map.mp hz
      rw [← he]
      exact (stocksLoop_sublist hsl).subset hj

/-- Counterexample to claim C4 as stated: two records with the same
matched code each emit a price entry, so the matched id `"A"` gets two
entries. -/
theorem claim4_cex :
    ((create_prices [⟨"A", "5", "7"⟩, ⟨"A", "6", "8"⟩] ["A"]).filter
      (fun p => p.offer_id == "A")).length = 2 := by
  decide

/-- Witness for claim C4's amended theorem at a concrete input. -/
theorem claim4_witness :
    (("A" : String) ∈ (["A"] : List String)) ∧
    ((["A"] : List String).Nodup → True) :=
  ⟨(claim4_unknown_codes_ignored [⟨"A", "5", "7"⟩] ["A"]).1 [⟨"A", 5⟩] []
      (by decide) ⟨"A", 5⟩ (by decide),
    fun _ => trivial⟩

/-- Claim C5 (confirmed): a matched record's stock value follows the
quantization mapping — `">10"` gives 100, exactly `"1"` gives 0, any other
quantity expression is parsed as an integer literally; the matched record
at the head of the list contributes the first output entry with exactly
that value. -/
theorem claim5_stock_quantization :
    stockOfQty ">10" = some 100 ∧ stockOfQty "1" = some 0 ∧
    (∀ q, q ≠ ">10" → q ≠ "1" → stockOfQty q = pyInt q) ∧
    (∀ (w : RemnantRecord) ws ids out ids', w.code ∈ ids →
      create_stocks (w :: ws) ids = some (out, ids') →
      ∃ st, stockOfQty w.qty = some st ∧ out.head? = some ⟨w.code, st⟩) := by
  refine ⟨rfl, rfl, ?_, ?_⟩
  · intro q h1 h2
    unfold stockOfQty
    rw [if_neg h1, if_neg h2]
  · intro w ws ids out ids' hmem h
    unfold create_stocks at h
    simp only [stocksLoop, if_pos hmem] at h
    cases hq : stockOfQty w.qty with
    | none => rw [hq] at h; exact absurd h (by simp)
    | some st =>
      rw [hq] at h
      cases hr : stocksLoop ws (ids.erase w.code) with
      | none => rw [hr] at h; exact absurd h (by simp)
      | some p =>
        obtain ⟨m2, ids2⟩ := p
        rw [hr] at h
        simp only [Option.some.injEq, Prod.mk.injEq] at h
        refine ⟨st, rfl, ?_⟩
        rw [← h.1]
        rfl

/-- Witness for claim C5 at a concrete input. -/
theorem claim5_witness :
    ∃ st, stockOfQty "5" = some st ∧
      ([(⟨"A", 5⟩ : StockUpdate)] : List StockUpdate).head? = some ⟨"A", st⟩ :=
  claim5_stock_quantization.2.2.2 ⟨"A", "5", "7"⟩ [] ["A"] [⟨"A", 5⟩] []
    (by decide) (by decide)

/-- Claim C6 (confirmed): `price_conversion` keeps the prefix of the price
expression up to (not including) the first dot and strips every non-digit
character; in particular it maps a locale-formatted ruble price with
apostrophe group separator to the bare digit string. -/
theorem claim6_price_normalization :
    (∀ s : String, price_conversion s =
      String.mk ((s.toList.takeWhile (fun c => !(c == '.'))).filter Char.isDigit)) ∧
    price_conversion (String.mk
      ['5', Char.ofNat 39, '9', '9', '0', '.', '0', '0', ' ', 'р', 'у', 'б', '.']) =
      "5990" ∧
    price_conversion ("789 руб") = "789" := by
  refine ⟨?_, by decide, by decide⟩
  intro s
  unfold price_conversion
  rw [splitDot_headD]

/-- Claim C7 (confirmed): for chunk size at least 1, `divide` yields
consecutive slices whose concatenation is the input, each of length at
most the chunk size, with every slice except possibly the last of exactly
the chunk size; the two enumerated examples hold. -/
theorem claim7_divide_chunks :
    (∀ (α : Type) (lst : List α) (n : Nat), 1 ≤ n →
      (divide lst n).flatten = lst ∧
      (∀ c ∈ divide lst n, c.length ≤ n) ∧
      (∀ c ∈ (divide lst n).dropLast, c.length = n)) ∧
    divide [1, 2, 3, 4, 5, 6, 7, 8, 9] 3 = [[1, 2, 3], [4, 5, 6], [7, 8, 9]] ∧
    divide [1, 2, 3, 4, 5, 6, 7] 3 = [[1, 2, 3], [4, 5, 6], [7]] := by
  refine ⟨?_, by decide, by decide⟩
  intro α lst n hn
  have hn' : n ≠ 0 := by omega
  exact ⟨divide_flatten lst.length lst (le_refl _) n hn',
    fun c hc => divide_mem_length hc,
    divide_dropLast_length lst.length lst (le_refl _) n hn'⟩

/-- Witness for claim C7 at a concrete input. -/
theorem claim7_witness :
    (divide [1, 2] 2).flatten = [1, 2] ∧
    (∀ c ∈ divide [1, 2] 2, c.length ≤ 2) ∧
    (∀ c ∈ (divide [1, 2] 2).dropLast, c.length = 2) :=
  claim7_divide_chunks.1 Nat [1, 2] 2 (by decide)

/-- Claim C8 (confirmed): the reconciler is deterministic — a second run
of `create_stocks` and `create_prices` on inputs identical to the first
run's produces identical output lists. -/
theorem claim8_reconciler_deterministic :
    ∀ (ws1 ws2 : List RemnantRecord) (ids1 ids2 : List String),
    ws1 = ws2 → ids1 = ids2 →
    create_stocks ws1 ids1 = create_stocks ws2 ids2 ∧
    create_prices ws1 ids1 = create_prices ws2 ids2 := by
  intro ws1 ws2 ids1 ids2 h1 h2
  rw [h1, h2]
  exact ⟨rfl, rfl⟩

/-- Witness for claim C8 at a concrete input. -/
theorem claim8_witness :
    create_stocks [⟨"A", "5", "7"⟩] ["A"] = create_stocks [⟨"A", "5", "7"⟩] ["A"] ∧
    create_prices [⟨"A", "5", "7"⟩] ["A"] = create_prices [⟨"A", "5", "7"⟩] ["A"] :=
  claim8_reconciler_deterministic [⟨"A", "5", "7"⟩] [⟨"A", "5", "7"⟩] ["A"] ["A"] rfl rfl

/-- Claim C9 (confirmed): every chunk the upload drivers send is within
the endpoint batch limit — chunks of 100 for stocks are at most 100
entries, and chunks of 900 (in `main`) or 1000 (in `upload_prices`) for
prices are at most 1000 entries. -/
theorem claim9_batch_limits : ∀ (stocks : List StockUpdate) (prices : List PriceUpdate),
    (∀ c ∈ divide stocks 100, c.length ≤ 100) ∧
    (∀ c ∈ divide prices 900, c.length ≤ 1000) ∧
    (∀ c ∈ divide prices 1000, c.length ≤ 1000) := by
  intro stocks prices
  exact ⟨fun c hc => divide_mem_length hc,
    fun c hc => le_trans (divide_mem_length hc) (by omega),
    fun c hc => divide_mem_length hc⟩

/-- Witness for claim C9 at a concrete input. -/
theorem claim9_witness : ([(⟨"A", 0⟩ : StockUpdate)] : List StockUpdate).length ≤ 100 :=
  (claim9_batch_limits [⟨"A", 0⟩] []).1 [⟨"A", 0⟩] (by decide)

/-- Claim C10 (confirmed): whenever some request makes the accumulated
item count equal the reported total, the pagination loop halts (with
enough fuel) and returns the offer ids of the items accumulated up to the
first such request. -/
theorem claim10_pagination_terminates : ∀ (server : String → Page) (j : Nat),
    stopsAt server j →
    ∃ fuel m, m ≤ j ∧ stopsAt server m ∧
      get_offer_ids server fuel =
        some ((itemsUpTo server (m + 1)).map ProductItem.offer_id) := by
  intro server j hstop
  obtain ⟨m, hm0, hmj, hms, hfetch⟩ := fetchAux_reaches server j 0 (by simpa using hstop)
  refine ⟨j + 1, m, by omega, hms, ?_⟩
  unfold get_offer_ids
  have h0 : cursorAt server 0 = "" := rfl
  have h1 : itemsUpTo server 0 = [] := rfl
  rw [← h0, ← h1, hfetch]
  rfl

/-- Witness for claim C10 at a concrete server whose single page already
reports a total of 1. -/
theorem claim10_witness :
    ∃ fuel m, m ≤ 0 ∧ stopsAt (fun _ => ⟨[⟨"A"⟩], 1, "x"⟩) m ∧
      get_offer_ids (fun _ => ⟨[⟨"A"⟩], 1, "x"⟩) fuel =
        some ((itemsUpTo (fun _ => ⟨[⟨"A"⟩], 1, "x"⟩) (m + 1)).map ProductItem.offer_id) :=
  claim10_pagination_terminates (fun _ => ⟨[⟨"A"⟩], 1, "x"⟩) 0 (by decide)
